import Mathlib

/-!
Verification of the miniqmc core against its specification.

Shallow embedding of the two source files:
* `src/Particle/DistanceTableBA.h` — the pair distance/displacement table
  (`DistanceTableBA` below), with `resize`, `evaluate` (full table and single
  row), `move` (trial evaluation), `update` (commit) and `donePbyP`
  (compact neighbor-list construction).
* `src/QMCWaveFunctions/Determinant.h` — the determinant tracker
  (`DetState` below), with `ratio` (row-replacement trial ratio),
  `acceptMove` (Sherman-Morrison rank-1 commit), `recompute`
  (from-scratch factorization) and `InvertWithLog` (LU factorization with
  partial pivoting, log-magnitude and phase of the determinant).

Scalar arithmetic is embedded over `ℚ` (the C++ code is templated over a
real scalar type; rationals make every operation exact and executable);
logarithms and the phase live in `ℝ`.
-/

/-- A D-dimensional position or displacement with rational coordinates. -/
abbrev Pos (D : ℕ) := Fin D → ℚ

/-- Modelled from the spec: the external BoundaryPolicy
(`DTD_BConds`, not among the source files) supplying
`minimumImage(displacement) → (distance, correctedDisplacement)`,
"pure and stateless per call".  `dist a b` / `disp a b` are the distance and
displacement computed for a particle at `a` against a source at `b`. -/
structure BC (D : ℕ) where
  dist : Pos D → Pos D → ℚ
  disp : Pos D → Pos D → Pos D

/-- State of `DistanceTableBA` (target-major dense table, scratch row and
compact neighbor structures).  Buffers are modelled as total functions over
`ℕ` indices; the counts delimit the entries the code actually touches.
The compact structures `J2`/`r_m2`/`dr_m2` are modelled as the list of
entries written for each source (the code writes a prefix of a padded array
and delimits it by `M[i]`). -/
@[ext]
structure DistTableBA (D : ℕ) where
  Nsources : ℕ
  Ntargets : ℕ
  Distances : ℕ → ℕ → ℚ
  Displacements : ℕ → ℕ → Pos D
  Temp_r : ℕ → ℚ
  Temp_dr : ℕ → Pos D
  M : ℕ → ℕ
  J2 : ℕ → List ℕ
  r_m2 : ℕ → List ℚ
  dr_m2 : ℕ → List (Pos D)

/-- Modelled from the spec: `DTD_BConds::computeDistances` fills entries
`[first, stop)` of a distance row and a displacement row for a particle at
`p` against source positions `src`; entries outside the range are untouched. -/
def computeDistances {D : ℕ} (bc : BC D) (src : ℕ → Pos D) (p : Pos D)
    (oldr : ℕ → ℚ) (oldd : ℕ → Pos D) (first stop : ℕ) : (ℕ → ℚ) × (ℕ → Pos D) :=
  (fun s => if first ≤ s ∧ s < stop then bc.dist p (src s) else oldr s,
   fun s => if first ≤ s ∧ s < stop then bc.disp p (src s) else oldd s)

/-- `DistanceTableBA::resize(ns, nt)`: records the counts; when either count
is zero the early `return` keeps every buffer exactly as it was; otherwise
all buffers are (re)allocated (fresh allocation contents modelled as zero). -/
def DistTableBA.resize {D : ℕ} (t : DistTableBA D) (ns nt : ℕ) : DistTableBA D :=
  if ns * nt = 0 then { t with Nsources := ns, Ntargets := nt }
  else
    { Nsources := ns, Ntargets := nt,
      Distances := fun _ _ => 0, Displacements := fun _ _ _ => 0,
      Temp_r := fun _ => 0, Temp_dr := fun _ _ => 0,
      M := fun _ => 0, J2 := fun _ => [], r_m2 := fun _ => [], dr_m2 := fun _ => [] }

/-- `DistanceTableBA::evaluate(P)`: recompute row `iat` for every target
`iat < Ntargets` against sources `[0, Nsources)`. -/
def DistTableBA.evaluate {D : ℕ} (t : DistTableBA D) (bc : BC D)
    (src tgt : ℕ → Pos D) : DistTableBA D :=
  { t with
    Distances := fun j =>
      if j < t.Ntargets then
        (computeDistances bc src (tgt j) (t.Distances j) (t.Displacements j) 0 t.Nsources).1
      else t.Distances j,
    Displacements := fun j =>
      if j < t.Ntargets then
        (computeDistances bc src (tgt j) (t.Distances j) (t.Displacements j) 0 t.Nsources).2
      else t.Displacements j }

/-- `DistanceTableBA::evaluate(P, iat)`: recompute only row `iat`. -/
def DistTableBA.evaluateRow {D : ℕ} (t : DistTableBA D) (bc : BC D)
    (src tgt : ℕ → Pos D) (iat : ℕ) : DistTableBA D :=
  { t with
    Distances := fun j =>
      if j = iat then
        (computeDistances bc src (tgt iat) (t.Distances j) (t.Displacements j) 0 t.Nsources).1
      else t.Distances j,
    Displacements := fun j =>
      if j = iat then
        (computeDistances bc src (tgt iat) (t.Distances j) (t.Displacements j) 0 t.Nsources).2
      else t.Displacements j }

/-- `DistanceTableBA::move(P, rnew)`: evaluate the trial row for a particle at
`rnew` into the scratch buffers `Temp_r`/`Temp_dr` only. -/
def DistTableBA.move {D : ℕ} (t : DistTableBA D) (bc : BC D)
    (src : ℕ → Pos D) (rnew : Pos D) : DistTableBA D :=
  { t with
    Temp_r := (computeDistances bc src rnew t.Temp_r t.Temp_dr 0 t.Nsources).1,
    Temp_dr := (computeDistances bc src rnew t.Temp_r t.Temp_dr 0 t.Nsources).2 }

/-- `DistanceTableBA::update(iat)`: `copy_n` the first `Nsources` scratch
entries into row `iat` of the committed tables; the scratch row itself is
left alone. -/
def DistTableBA.update {D : ℕ} (t : DistTableBA D) (iat : ℕ) : DistTableBA D :=
  { t with
    Distances := fun j s =>
      if j = iat ∧ s < t.Nsources then t.Temp_r s else t.Distances j s,
    Displacements := fun j s =>
      if j = iat ∧ s < t.Nsources then t.Temp_dr s else t.Displacements j s }

/-- The compact list scan of `donePbyP` for source `i` at cutoff `Rmax`:
targets `jat` from `0` to `Ntargets - 1` in order, kept when
`Distances[jat][iat] < Rmax`. -/
def DistTableBA.compactOf {D : ℕ} (t : DistTableBA D) (i : ℕ) (Rmax : ℚ) : List ℕ :=
  (List.range t.Ntargets).filter (fun j => t.Distances j i < Rmax)

/-- `DistanceTableBA::donePbyP()`: early return when `Rmax` is below machine
epsilon `eps`; otherwise, for every source `i < Nsources`, build the compact
list (indices `J2`, distances `r_m2`, sign-flipped displacements `dr_m2`) and
its count `M[i]`. -/
def DistTableBA.donePbyP {D : ℕ} (t : DistTableBA D) (Rmax eps : ℚ) : DistTableBA D :=
  if Rmax < eps then t
  else
    { t with
      M := fun i => if i < t.Nsources then (t.compactOf i Rmax).length else t.M i,
      J2 := fun i => if i < t.Nsources then t.compactOf i Rmax else t.J2 i,
      r_m2 := fun i =>
        if i < t.Nsources then (t.compactOf i Rmax).map (fun j => t.Distances j i)
        else t.r_m2 i,
      dr_m2 := fun i =>
        if i < t.Nsources then
          (t.compactOf i Rmax).map (fun j d => -(t.Displacements j i d))
        else t.dr_m2 i }

/-- Claim C7: when the cutoff radius is numerically zero (below machine
epsilon), `donePbyP` is a no-op: every component of the table state,
including all compact structures, is left exactly as it was. -/
theorem donePbyP_noop_of_small_cutoff {D : ℕ} (t : DistTableBA D) (Rmax eps : ℚ)
    (h : Rmax < eps) : t.donePbyP Rmax eps = t := by
  simp [DistTableBA.donePbyP, h]

/-- A small concrete table used to witness the distance-table theorems. -/
def tConcrete : DistTableBA 1 :=
  { Nsources := 2, Ntargets := 2,
    Distances := fun j s => (j : ℚ) + (s : ℚ) + 1,
    Displacements := fun j s _ => (j : ℚ) - (s : ℚ),
    Temp_r := fun s => (s : ℚ) + 5,
    Temp_dr := fun s _ => (s : ℚ) - 5,
    M := fun i => i + 3, J2 := fun i => [i], r_m2 := fun i => [(i : ℚ)],
    dr_m2 := fun i => [fun _ => (i : ℚ)] }

theorem donePbyP_noop_witness :
    (0 : ℚ) < 1 / 4503599627370496 ∧
      tConcrete.donePbyP 0 (1 / 4503599627370496) = tConcrete :=
  ⟨by norm_num, donePbyP_noop_of_small_cutoff tConcrete 0 (1 / 4503599627370496) (by norm_num)⟩

/-- Claim C10: commit is idempotent and does not consume the trial:
`update iat` twice yields exactly the state of calling it once, since
`update` only copies the scratch row into row `iat` and leaves the scratch
buffers unchanged. -/
theorem update_idempotent {D : ℕ} (t : DistTableBA D) (iat : ℕ) :
    (t.update iat).update iat = t.update iat := by
  unfold DistTableBA.update
  ext
  all_goals dsimp only
  all_goals first
    | rfl
    | (split_ifs <;> rfl)

/-- Claim C6: after `donePbyP` with a cutoff `Rmax` not below machine epsilon,
the compact list of every source `i` contains exactly the targets `j` with
`Distances[j][i] < Rmax`, in strictly ascending target order, with
`M[i]` equal to the number of such targets, compact distances equal to the
dense entries and compact displacements equal to the negated dense entries. -/
theorem donePbyP_compact_correct {D : ℕ} (t : DistTableBA D) (Rmax eps : ℚ) (i : ℕ)
    (heps : eps ≤ Rmax) (hi : i < t.Nsources) :
    (∀ j, j ∈ (t.donePbyP Rmax eps).J2 i ↔ j < t.Ntargets ∧ t.Distances j i < Rmax)
    ∧ List.Sorted (· < ·) ((t.donePbyP Rmax eps).J2 i)
    ∧ (t.donePbyP Rmax eps).M i = ((t.donePbyP Rmax eps).J2 i).length
    ∧ (t.donePbyP Rmax eps).r_m2 i
        = ((t.donePbyP Rmax eps).J2 i).map (fun j => t.Distances j i)
    ∧ (t.donePbyP Rmax eps).dr_m2 i
        = ((t.donePbyP Rmax eps).J2 i).map (fun j d => -(t.Displacements j i d)) := by
  have hR : ¬ Rmax < eps := not_lt.mpr heps
  have hJ : (t.donePbyP Rmax eps).J2 i = t.compactOf i Rmax := by
    simp [DistTableBA.donePbyP, hR, hi]
  have hM : (t.donePbyP Rmax eps).M i = (t.compactOf i Rmax).length := by
    simp [DistTableBA.donePbyP, hR, hi]
  have hr : (t.donePbyP Rmax eps).r_m2 i
      = (t.compactOf i Rmax).map (fun j => t.Distances j i) := by
    simp [DistTableBA.donePbyP, hR, hi]
  have hd : (t.donePbyP Rmax eps).dr_m2 i
      = (t.compactOf i Rmax).map (fun j d => -(t.Displacements j i d)) := by
    simp [DistTableBA.donePbyP, hR, hi]
  refine ⟨?_, ?_, ?_, ?_, ?_⟩
  · intro j
    rw [hJ]
    simp [DistTableBA.compactOf, List.mem_filter, List.mem_range, and_comm]
  · rw [hJ]
    exact List.Pairwise.filter _ (List.pairwise_lt_range _)
  · rw [hJ, hM]
  · rw [hJ, hr]
  · rw [hJ, hd]

theorem donePbyP_compact_witness :
    (∀ j, j ∈ (tConcrete.donePbyP 2 (1 / 4503599627370496)).J2 0
        ↔ j < tConcrete.Ntargets ∧ tConcrete.Distances j 0 < 2)
    ∧ List.Sorted (· < ·) ((tConcrete.donePbyP 2 (1 / 4503599627370496)).J2 0)
    ∧ (tConcrete.donePbyP 2 (1 / 4503599627370496)).M 0
        = ((tConcrete.donePbyP 2 (1 / 4503599627370496)).J2 0).length
    ∧ (tConcrete.donePbyP 2 (1 / 4503599627370496)).r_m2 0
        = ((tConcrete.donePbyP 2 (1 / 4503599627370496)).J2 0).map
            (fun j => tConcrete.Distances j 0)
    ∧ (tConcrete.donePbyP 2 (1 / 4503599627370496)).dr_m2 0
        = ((tConcrete.donePbyP 2 (1 / 4503599627370496)).J2 0).map
            (fun j d => -(tConcrete.Displacements j 0 d)) :=
  donePbyP_compact_correct tConcrete 2 (1 / 4503599627370496) 0 (by norm_num)
    (by norm_num [tConcrete])

/-- Boundary policy, source positions and candidate positions used by the
concrete witnesses below. -/
def bcLine : BC 1 := { dist := fun a b => a 0 - b 0, disp := fun a b _ => b 0 - a 0 }

def srcPts : ℕ → Pos 1 := fun s _ => (s : ℚ)

def posA : Pos 1 := fun _ => 7

def posB : Pos 1 := fun _ => 9

/-- Claim C8: repeated trial evaluations (`move`) write only the scratch
buffers and leave the committed tables (and the compact structures)
unchanged; after `update iat`, row `iat` equals element-for-element the row
produced by the last trial evaluation, and every other row is unchanged. -/
theorem move_move_update_frame {D : ℕ} (t : DistTableBA D) (bc : BC D)
    (src : ℕ → Pos D) (p₁ p₂ : Pos D) (iat : ℕ) :
    ((t.move bc src p₁).move bc src p₂).Distances = t.Distances
    ∧ ((t.move bc src p₁).move bc src p₂).Displacements = t.Displacements
    ∧ ((t.move bc src p₁).move bc src p₂).M = t.M
    ∧ ((t.move bc src p₁).move bc src p₂).J2 = t.J2
    ∧ ((t.move bc src p₁).move bc src p₂).r_m2 = t.r_m2
    ∧ ((t.move bc src p₁).move bc src p₂).dr_m2 = t.dr_m2
    ∧ (∀ s, s < t.Nsources →
        (((t.move bc src p₁).move bc src p₂).update iat).Distances iat s
            = bc.dist p₂ (src s)
        ∧ (((t.move bc src p₁).move bc src p₂).update iat).Displacements iat s
            = bc.disp p₂ (src s))
    ∧ (∀ j, j ≠ iat →
        (((t.move bc src p₁).move bc src p₂).update iat).Distances j = t.Distances j
        ∧ (((t.move bc src p₁).move bc src p₂).update iat).Displacements j
            = t.Displacements j) := by
  refine ⟨rfl, rfl, rfl, rfl, rfl, rfl, ?_, ?_⟩
  · intro s hs
    constructor <;>
      simp [DistTableBA.move, DistTableBA.update, computeDistances, hs, Nat.zero_le]
  · intro j hj
    constructor <;> (funext s; simp [DistTableBA.move, DistTableBA.update, hj])

theorem move_move_update_frame_witness :
    ((tConcrete.move bcLine srcPts posA).move bcLine srcPts posB).Distances
        = tConcrete.Distances
    ∧ ((tConcrete.move bcLine srcPts posA).move bcLine srcPts posB).Displacements
        = tConcrete.Displacements
    ∧ ((tConcrete.move bcLine srcPts posA).move bcLine srcPts posB).M = tConcrete.M
    ∧ ((tConcrete.move bcLine srcPts posA).move bcLine srcPts posB).J2 = tConcrete.J2
    ∧ ((tConcrete.move bcLine srcPts posA).move bcLine srcPts posB).r_m2 = tConcrete.r_m2
    ∧ ((tConcrete.move bcLine srcPts posA).move bcLine srcPts posB).dr_m2 = tConcrete.dr_m2
    ∧ (∀ s, s < tConcrete.Nsources →
        (((tConcrete.move bcLine srcPts posA).move bcLine srcPts posB).update 1).Distances 1 s
            = bcLine.dist posB (srcPts s)
        ∧ (((tConcrete.move bcLine srcPts posA).move bcLine srcPts posB).update 1).Displacements 1 s
            = bcLine.disp posB (srcPts s))
    ∧ (∀ j, j ≠ 1 →
        (((tConcrete.move bcLine srcPts posA).move bcLine srcPts posB).update 1).Distances j
            = tConcrete.Distances j
        ∧ (((tConcrete.move bcLine srcPts posA).move bcLine srcPts posB).update 1).Displacements j
            = tConcrete.Displacements j) :=
  move_move_update_frame tConcrete bcLine srcPts posA posB 1

/-- Claim C9 (amended): `resize` with either count zero records the two
counts and keeps every buffer exactly as it was; afterwards, when the source
count is zero, every operation (`evaluate`, `evaluateRow`, `move`, `update`,
`donePbyP`) leaves the table exactly unchanged, and when the target count is
zero the full-table evaluation leaves the table exactly unchanged. -/
theorem resize_zero_ops_noop {D : ℕ} (t : DistTableBA D) (ns nt : ℕ) (bc : BC D)
    (src tgt : ℕ → Pos D) (p : Pos D) (iat : ℕ) (Rmax eps : ℚ) (h0 : ns * nt = 0) :
    ((t.resize ns nt).Nsources = ns ∧ (t.resize ns nt).Ntargets = nt
      ∧ (t.resize ns nt).Distances = t.Distances
      ∧ (t.resize ns nt).Displacements = t.Displacements
      ∧ (t.resize ns nt).Temp_r = t.Temp_r ∧ (t.resize ns nt).Temp_dr = t.Temp_dr
      ∧ (t.resize ns nt).M = t.M ∧ (t.resize ns nt).J2 = t.J2
      ∧ (t.resize ns nt).r_m2 = t.r_m2 ∧ (t.resize ns nt).dr_m2 = t.dr_m2)
    ∧ (∀ u : DistTableBA D, u.Nsources = 0 →
        u.evaluate bc src tgt = u ∧ u.evaluateRow bc src tgt iat = u
        ∧ u.move bc src p = u ∧ u.update iat = u ∧ u.donePbyP Rmax eps = u)
    ∧ (∀ u : DistTableBA D, u.Ntargets = 0 → u.evaluate bc src tgt = u) := by
  refine ⟨?_, ?_, ?_⟩
  · simp [DistTableBA.resize, h0]
  · intro u hu
    refine ⟨?_, ?_, ?_, ?_, ?_⟩
    · ext j s <;> simp [DistTableBA.evaluate, computeDistances, hu]
    · ext j s <;> simp [DistTableBA.evaluateRow, computeDistances, hu]
    · ext s <;> simp [DistTableBA.move, computeDistances, hu]
    · ext j s <;> simp [DistTableBA.update, hu]
    · unfold DistTableBA.donePbyP
      split_ifs with h
      · rfl
      · ext i <;> simp [hu]
  · intro u hu
    ext j s <;> simp [DistTableBA.evaluate, computeDistances, hu]

theorem resize_zero_ops_noop_witness :
    (1 * 0 = 0)
    ∧ (((tConcrete.resize 1 0).Nsources = 1 ∧ (tConcrete.resize 1 0).Ntargets = 0
      ∧ (tConcrete.resize 1 0).Distances = tConcrete.Distances
      ∧ (tConcrete.resize 1 0).Displacements = tConcrete.Displacements
      ∧ (tConcrete.resize 1 0).Temp_r = tConcrete.Temp_r
      ∧ (tConcrete.resize 1 0).Temp_dr = tConcrete.Temp_dr
      ∧ (tConcrete.resize 1 0).M = tConcrete.M ∧ (tConcrete.resize 1 0).J2 = tConcrete.J2
      ∧ (tConcrete.resize 1 0).r_m2 = tConcrete.r_m2
      ∧ (tConcrete.resize 1 0).dr_m2 = tConcrete.dr_m2)
    ∧ (∀ u : DistTableBA 1, u.Nsources = 0 →
        u.evaluate bcLine srcPts srcPts = u ∧ u.evaluateRow bcLine srcPts srcPts 0 = u
        ∧ u.move bcLine srcPts posA = u ∧ u.update 0 = u ∧ u.donePbyP 2 1 = u)
    ∧ (∀ u : DistTableBA 1, u.Ntargets = 0 → u.evaluate bcLine srcPts srcPts = u)) :=
  ⟨by norm_num, resize_zero_ops_noop tConcrete 1 0 bcLine srcPts srcPts posA 0 2 1 (by norm_num)⟩

/-- A fresh, as-constructed empty table (all buffers zero-sized / zeroed). -/
def tFresh : DistTableBA 1 :=
  { Nsources := 0, Ntargets := 0, Distances := fun _ _ => 0,
    Displacements := fun _ _ _ => 0, Temp_r := fun _ => 0, Temp_dr := fun _ _ => 0,
    M := fun _ => 0, J2 := fun _ => [], r_m2 := fun _ => [], dr_m2 := fun _ => [] }

/-- Claim C9 as stated is false: after `resize(1, 0)` (one source, zero
targets) the trial evaluation `move` is not a no-op — it still writes the
`Nsources` scratch entries of `Temp_r`/`Temp_dr`, because the `move` loop is
bounded by `Nsources` only. -/
theorem resize_zero_counterexample :
    ¬ ((tFresh.resize 1 0).move bcLine srcPts posA = tFresh.resize 1 0) := by
  intro h
  have h0 := congrArg (fun u => u.Temp_r 0) h
  simp [DistTableBA.resize, DistTableBA.move, computeDistances, tFresh, bcLine,
    srcPts, posA] at h0

/-- State of the determinant tracker (`DiracDeterminant` /
`DiracDeterminantKokkos`).  `psiMsave` is the Slater matrix with row =
particle (the spec's `Matrix`); `psiMinv` is the stored working inverse.
The code keeps `psiMinv` as the transpose of the true inverse of `psiMsave`
(its own consistency check `checkMatrix` verifies `psiMsave * psiMinvᵀ ≈ 1`,
and `recompute()` inverts `psiM = psiMsaveᵀ`); the spec's abstract `Inverse`
is therefore `psiMinvᵀ`.  `psiV` is the trial row (`TrialVector`),
`curRatio` the pending `TrialRatio`, `LogValue` the stored
log-determinant magnitude. -/
structure DetState (n : ℕ) where
  psiMsave : Matrix (Fin n) (Fin n) ℚ
  psiMinv : Matrix (Fin n) (Fin n) ℚ
  psiV : Fin n → ℚ
  curRatio : ℚ
  LogValue : ℝ

/-- Modelled from the spec: `lah.updateRatio(psiV, psiMinv, iel)` (the linear
algebra helper is not among the source files) — the inner product of the
trial row with row `iel` of the stored inverse:
`TrialRatio = Σ_k newRow[k] · Inverse[rowIndex][k]`. -/
def updateRatio {n : ℕ} (S : Matrix (Fin n) (Fin n) ℚ) (v : Fin n → ℚ) (r : Fin n) : ℚ :=
  ∑ k, v k * S r k

/-- `DiracDeterminant::ratio(P, iel)`: store the proposed row in `psiV` and
the determinant ratio in `curRatio`; `psiMsave`/`psiMinv` are untouched.
(In the code the proposed row is drawn from the random generator, an external
collaborator; here it is the argument `v`.) -/
def DetState.ratio {n : ℕ} (st : DetState n) (r : Fin n) (v : Fin n → ℚ) : DetState n :=
  { st with psiV := v, curRatio := updateRatio st.psiMinv v r }

/-- The auxiliary row of `updateRow` (Determinant.h, lines 75-86):
`tempRowVec = c_ratio · (psiMinv-gemvTrans applied to psiV)` with entry
`rowchanged` then overwritten by `1 - c_ratio`. -/
def tempRowVec {n : ℕ} (S : Matrix (Fin n) (Fin n) ℚ) (v : Fin n → ℚ) (r : Fin n)
    (cratio : ℚ) : Fin n → ℚ :=
  fun p => if p = r then 1 - cratio else cratio * ∑ k, S p k * v k

/-- `updateRow(ddk, lah, rowchanged, c_ratio_in)` (Determinant.h, lines
71-96): the Sherman-Morrison rank-1 update of the stored inverse; `rcopy` is
row `rowchanged` of the old `psiMinv` and the final `ger` subtracts the outer
product of `tempRowVec` with `rcopy` from `psiMinv`. -/
def updateRowSM {n : ℕ} (S : Matrix (Fin n) (Fin n) ℚ) (r : Fin n) (v : Fin n → ℚ)
    (cratioIn : ℚ) : Matrix (Fin n) (Fin n) ℚ :=
  fun p q => S p q - tempRowVec S v r (1 / cratioIn) p * S r q

/-- `DiracDeterminant::acceptMove(P, iel)`: commit the pending trial —
`updateRow` on `psiMinv`, then `copyBack` of `psiV` into row `iel` of
`psiMsave`.  The stored `LogValue` is not touched by the code. -/
def DetState.acceptMove {n : ℕ} (st : DetState n) (r : Fin n) : DetState n :=
  { st with
    psiMinv := updateRowSM st.psiMinv r st.psiV st.curRatio,
    psiMsave := st.psiMsave.updateRow r st.psiV }

/-- `DiracDeterminant::recompute()`: from-scratch factorization — transpose
`psiMsave` into `psiM`, invert it (`lah.invertMatrix`, modelled from the spec
as exact matrix inversion), and store the result as `psiMinv`. -/
noncomputable def DetState.recompute {n : ℕ} (st : DetState n) : DetState n :=
  { st with psiMinv := (st.psiMsave.transpose)⁻¹ }

/-- Claim C2: `ratio` returns the dot product of the new row with row
`rowIndex` of the stored inverse, stores the new row as the trial vector,
and leaves both the matrix and the inverse unchanged. -/
theorem ratio_spec {n : ℕ} (st : DetState n) (r : Fin n) (v : Fin n → ℚ) :
    (st.ratio r v).curRatio = ∑ k, v k * st.psiMinv r k
    ∧ (st.ratio r v).psiV = v
    ∧ (st.ratio r v).psiMsave = st.psiMsave
    ∧ (st.ratio r v).psiMinv = st.psiMinv :=
  ⟨rfl, rfl, rfl, rfl⟩

theorem sum_mul_sub {n : ℕ} (X Y Z : Fin n → ℚ) (u : ℚ) :
    ∑ k, X k * (Y k - u * Z k) = (∑ k, X k * Y k) - u * ∑ k, X k * Z k := by
  rw [Finset.mul_sum, ← Finset.sum_sub_distrib]
  exact Finset.sum_congr rfl fun k _ => by ring

/-- Sherman-Morrison correctness of `updateRow`: if the stored inverse is
consistent (`A * psiMinvᵀ = 1`) and the replacement ratio is nonzero, then
after replacing row `r` of `A` by `v` the updated store is again consistent. -/
theorem updateRowSM_mul_eq_one {n : ℕ} (A S : Matrix (Fin n) (Fin n) ℚ)
    (r : Fin n) (v : Fin n → ℚ) (h1 : A * S.transpose = 1)
    (hr : updateRatio S v r ≠ 0) :
    (A.updateRow r v) * (updateRowSM S r v (updateRatio S v r)).transpose = 1 := by
  have hAS : ∀ i j, (∑ k, A i k * S j k) = if i = j then (1 : ℚ) else 0 := by
    intro i j
    have h := congrFun (congrFun h1 i) j
    simpa [Matrix.mul_apply, Matrix.transpose_apply, Matrix.one_apply] using h
  have hR : (∑ k, v k * S r k) = updateRatio S v r := rfl
  ext i j
  rw [Matrix.mul_apply, Matrix.one_apply]
  simp only [Matrix.transpose_apply, updateRowSM, Matrix.updateRow_apply, tempRowVec]
  rw [sum_mul_sub]
  by_cases hi : i = r
  · simp only [hi, eq_self_iff_true, if_true, hR]
    by_cases hj : j = r
    · simp only [hj, eq_self_iff_true, if_true, hR]
      field_simp
    · have hrj : ¬ r = j := fun h => hj h.symm
      simp only [if_neg hj, if_neg hrj]
      rw [show (∑ k, S j k * v k) = ∑ k, v k * S j k from
        Finset.sum_congr rfl fun k _ => mul_comm _ _]
      field_simp
  · simp only [if_neg hi]
    rw [hAS i j, hAS i r, if_neg hi]
    ring

/-- Claim C1: from a consistent state (the stored inverse is the inverse of
the matrix, i.e. `psiMsave * psiMinvᵀ = 1` as `checkMatrix` verifies) with a
nonzero trial ratio, `ratio` followed by `acceptMove` yields exactly the
matrix/inverse pair obtained by replacing row `r` of the matrix with the new
row and factorizing from scratch (`recompute`); in particular row `r` of the
matrix equals the trial vector and (abstract) inverse times matrix is the
identity.  Over exact rational arithmetic, "within numerical tolerance" is
equality. -/
theorem ratio_acceptMove_refines_recompute {n : ℕ} (st : DetState n) (r : Fin n)
    (v : Fin n → ℚ) (h1 : st.psiMsave * st.psiMinv.transpose = 1)
    (hr : updateRatio st.psiMinv v r ≠ 0) :
    ((st.ratio r v).acceptMove r).psiMsave = st.psiMsave.updateRow r v
    ∧ ((st.ratio r v).acceptMove r).psiMsave r = ((st.ratio r v).acceptMove r).psiV
    ∧ (((st.ratio r v).acceptMove r).psiMinv).transpose * ((st.ratio r v).acceptMove r).psiMsave = 1
    ∧ ((st.ratio r v).acceptMove r).psiMsave * (((st.ratio r v).acceptMove r).psiMinv).transpose = 1
    ∧ ((st.ratio r v).acceptMove r).psiMinv = (((st.ratio r v).acceptMove r).recompute).psiMinv := by
  have hkey := updateRowSM_mul_eq_one st.psiMsave st.psiMinv r v h1 hr
  have hacc1 : ((st.ratio r v).acceptMove r).psiMsave = st.psiMsave.updateRow r v := rfl
  have hacc2 : ((st.ratio r v).acceptMove r).psiMinv
      = updateRowSM st.psiMinv r v (updateRatio st.psiMinv v r) := rfl
  refine ⟨rfl, ?_, ?_, ?_, ?_⟩
  · rw [hacc1]
    exact Matrix.updateRow_self
  · rw [hacc1, hacc2]
    exact Matrix.mul_eq_one_comm.mp hkey
  · rw [hacc1, hacc2]
    exact hkey
  · show ((st.ratio r v).acceptMove r).psiMinv
      = ((((st.ratio r v).acceptMove r).psiMsave).transpose)⁻¹
    rw [hacc1, hacc2]
    have hinv : (st.psiMsave.updateRow r v)⁻¹
        = (updateRowSM st.psiMinv r v (updateRatio st.psiMinv v r)).transpose :=
      Matrix.inv_eq_right_inv hkey
    rw [← Matrix.transpose_nonsing_inv, hinv, Matrix.transpose_transpose]

/-- A concrete consistent 2×2 determinant state for the witnesses. -/
def stW : DetState 2 :=
  { psiMsave := !![1, 0; 1, 1], psiMinv := !![1, -1; 0, 1],
    psiV := fun _ => 0, curRatio := 0, LogValue := 0 }

def vW : Fin 2 → ℚ := ![2, 1]

theorem ratio_acceptMove_refines_recompute_witness :
    ((stW.ratio 0 vW).acceptMove 0).psiMsave = stW.psiMsave.updateRow 0 vW
    ∧ ((stW.ratio 0 vW).acceptMove 0).psiMsave 0 = ((stW.ratio 0 vW).acceptMove 0).psiV
    ∧ (((stW.ratio 0 vW).acceptMove 0).psiMinv).transpose * ((stW.ratio 0 vW).acceptMove 0).psiMsave = 1
    ∧ ((stW.ratio 0 vW).acceptMove 0).psiMsave * (((stW.ratio 0 vW).acceptMove 0).psiMinv).transpose = 1
    ∧ ((stW.ratio 0 vW).acceptMove 0).psiMinv = (((stW.ratio 0 vW).acceptMove 0).recompute).psiMinv :=
  ratio_acceptMove_refines_recompute stW 0 vW
    (by
      ext i j
      rw [Matrix.mul_apply, Fin.sum_univ_two]
      fin_cases i <;> fin_cases j <;>
        simp [stW, Matrix.transpose_apply, Matrix.one_apply])
    (by norm_num [updateRatio, stW, vW, Fin.sum_univ_two])

/-- Determinant of a one-row replacement: with a consistent stored inverse,
`det (A.updateRow r v) = updateRatio S v r * det A` — the trial ratio
computed by `ratio` is exactly the determinant ratio of the replacement. -/
theorem det_updateRow_eq_ratio_mul {n : ℕ} (A S : Matrix (Fin n) (Fin n) ℚ)
    (r : Fin n) (v : Fin n → ℚ) (h1 : A * S.transpose = 1) :
    (A.updateRow r v).det = updateRatio S v r * A.det := by
  have hSA : S.transpose * A = 1 := Matrix.mul_eq_one_comm.mp h1
  have hyA : Matrix.vecMul (Matrix.vecMul v S.transpose) A = v := by
    rw [Matrix.vecMul_vecMul, hSA, Matrix.vecMul_one]
  have hEA : ((1 : Matrix (Fin n) (Fin n) ℚ).updateRow r (Matrix.vecMul v S.transpose)) * A
      = A.updateRow r v := by
    ext i j
    rw [Matrix.mul_apply]
    by_cases hi : i = r
    · simp only [hi, Matrix.updateRow_self]
      have hs : (∑ k, Matrix.vecMul v S.transpose k * A k j)
          = Matrix.vecMul (Matrix.vecMul v S.transpose) A j := rfl
      rw [hs, hyA]
    · simp only [Matrix.updateRow_ne hi]
      have hs : (∑ k, (1 : Matrix (Fin n) (Fin n) ℚ) i k * A k j)
          = ((1 : Matrix (Fin n) (Fin n) ℚ) * A) i j := (Matrix.mul_apply).symm
      rw [hs, Matrix.one_mul]
  have hyr : Matrix.vecMul v S.transpose r = updateRatio S v r := rfl
  calc (A.updateRow r v).det
      = (((1 : Matrix (Fin n) (Fin n) ℚ).updateRow r (Matrix.vecMul v S.transpose)) * A).det := by
        rw [hEA]
    _ = ((1 : Matrix (Fin n) (Fin n) ℚ).updateRow r (Matrix.vecMul v S.transpose)).det * A.det :=
        Matrix.det_mul _ _
    _ = updateRatio S v r * A.det := by
        congr 1
        rw [← Matrix.cramer_transpose_apply, Matrix.transpose_one, Matrix.cramer_one]
        exact hyr

/-- Claim C5 (amended): committing a pending trial with `acceptMove` leaves
the stored `LogValue` unchanged — the code never updates it on accept — while
the log-determinant magnitude of the committed matrix itself does change by
exactly `log |TrialRatio|` (the determinant relation `det' = ratio · det` is
exact over ℚ; the sign is a separate concern). -/
theorem acceptMove_logdet_amended {n : ℕ} (st : DetState n) (r : Fin n) (v : Fin n → ℚ)
    (h1 : st.psiMsave * st.psiMinv.transpose = 1)
    (hr : updateRatio st.psiMinv v r ≠ 0) (hd : st.psiMsave.det ≠ 0) :
    ((st.ratio r v).acceptMove r).LogValue = st.LogValue
    ∧ (((st.ratio r v).acceptMove r).psiMsave).det
        = (st.ratio r v).curRatio * st.psiMsave.det
    ∧ Real.log |((((st.ratio r v).acceptMove r).psiMsave).det : ℝ)|
        = Real.log |((st.psiMsave.det : ℚ) : ℝ)|
          + Real.log |(((st.ratio r v).curRatio : ℚ) : ℝ)| := by
  have hdet : (((st.ratio r v).acceptMove r).psiMsave).det
      = updateRatio st.psiMinv v r * st.psiMsave.det :=
    det_updateRow_eq_ratio_mul st.psiMsave st.psiMinv r v h1
  have hcr : (st.ratio r v).curRatio = updateRatio st.psiMinv v r := rfl
  refine ⟨rfl, by rw [hdet, hcr], ?_⟩
  rw [hdet]
  have hrr : ((updateRatio st.psiMinv v r : ℚ) : ℝ) ≠ 0 := by exact_mod_cast hr
  have hdd : ((st.psiMsave.det : ℚ) : ℝ) ≠ 0 := by exact_mod_cast hd
  rw [hcr]
  push_cast
  rw [abs_mul, Real.log_mul (abs_ne_zero.mpr hrr) (abs_ne_zero.mpr hdd), add_comm]

theorem acceptMove_logdet_amended_witness :
    ((stW.ratio 0 vW).acceptMove 0).LogValue = stW.LogValue
    ∧ (((stW.ratio 0 vW).acceptMove 0).psiMsave).det
        = (stW.ratio 0 vW).curRatio * stW.psiMsave.det
    ∧ Real.log |((((stW.ratio 0 vW).acceptMove 0).psiMsave).det : ℝ)|
        = Real.log |((stW.psiMsave.det : ℚ) : ℝ)|
          + Real.log |(((stW.ratio 0 vW).curRatio : ℚ) : ℝ)| :=
  acceptMove_logdet_amended stW 0 vW
    (by
      ext i j
      rw [Matrix.mul_apply, Fin.sum_univ_two]
      fin_cases i <;> fin_cases j <;>
        simp [stW, Matrix.transpose_apply, Matrix.one_apply])
    (by norm_num [updateRatio, stW, vW, Fin.sum_univ_two])
    (by norm_num [stW, Matrix.det_fin_two])

/-- A concrete 1×1 consistent determinant state. -/
def st1 : DetState 1 :=
  { psiMsave := !![1], psiMinv := !![1], psiV := fun _ => 0, curRatio := 0,
    LogValue := 0 }

/-- Claim C5 as stated is false at a concrete input: committing the trial
row `(2)` on the 1×1 identity state (trial ratio `2`, nonzero) leaves the
stored `LogValue` at `0`, which is not `LogValue + log |TrialRatio| = log 2`:
`acceptMove` does not update the stored log-determinant magnitude. -/
theorem acceptMove_logvalue_counterexample :
    ¬ (((st1.ratio 0 ![2]).acceptMove 0).LogValue
        = st1.LogValue + Real.log |(((st1.ratio 0 ![2]).curRatio : ℚ) : ℝ)|) := by
  intro h
  have hlv : ((st1.ratio 0 ![2]).acceptMove 0).LogValue = 0 := rfl
  have hcr : (st1.ratio 0 ![2]).curRatio = 2 := by
    norm_num [DetState.ratio, updateRatio, st1, Fin.sum_univ_one]
  rw [hlv, hcr, show st1.LogValue = 0 from rfl] at h
  have habs : |(((2 : ℚ) : ℝ))| = 2 := by norm_num
  rw [habs] at h
  have hpos : (0 : ℝ) < Real.log 2 := Real.log_pos (by norm_num)
  rw [zero_add] at h
  exact absurd h.symm (ne_of_gt hpos)

/-- Modelled from the spec: the partial-pivot search of `lah.getrf` (the
linear algebra helper is not among the source files; the spec prescribes
"LU-style decomposition with partial pivoting").  `pivotRow A k` is the
first row `p ≥ k` maximizing `|A p k|`. -/
def pivotRow {n : ℕ} (A : Matrix (Fin n) (Fin n) ℚ) (k : Fin n) : Fin n :=
  (List.finRange n).foldl
    (fun best i => if k ≤ i ∧ |A best k| < |A i k| then i else best) k

/-- One elimination step of `getrf` at pivot column `k`: subtract
`(B i k / B k k)` times the pivot row from every lower row (over ℚ the
multiplier is `0` when the pivot is `0`, so a zero pivot column is skipped). -/
def elimStep {n : ℕ} (B : Matrix (Fin n) (Fin n) ℚ) (k : Fin n) :
    Matrix (Fin n) (Fin n) ℚ :=
  fun i j => if k < i then B i j - B i k / B k k * B k j else B i j

/-- Modelled from the spec: the `getrf` column recursion (fuel-indexed so the
definition is structural).  At column `k` it swaps in the partial-pivot row,
eliminates below, records the 1-based pivot row (the LAPACK `ipiv`
convention) and moves to column `k+1`. -/
def getrfAux {n : ℕ} : ℕ → ℕ → Matrix (Fin n) (Fin n) ℚ → (Fin n → ℕ) →
    Matrix (Fin n) (Fin n) ℚ × (Fin n → ℕ)
  | 0, _, A, piv => (A, piv)
  | fuel + 1, k, A, piv =>
    if h : k < n then
      getrfAux fuel (k + 1)
        (elimStep (A.submatrix (Equiv.swap ⟨k, h⟩ (pivotRow A ⟨k, h⟩)) id) ⟨k, h⟩)
        (Function.update piv ⟨k, h⟩ ((pivotRow A ⟨k, h⟩).val + 1))
    else (A, piv)

/-- Modelled from the spec: `lah.getrf(psiM)` — LU factorization with partial
pivoting; returns the factored matrix (whose diagonal holds the pivots) and
the pivot array `ipiv` read back by `lah.getPivot()`. -/
def getrf {n : ℕ} (A : Matrix (Fin n) (Fin n) ℚ) :
    Matrix (Fin n) (Fin n) ℚ × (Fin n → ℕ) :=
  getrfAux n 0 A (fun _ => 0)

/-- The sign `parallel_reduce` of `InvertWithLog` (Determinant.h, lines
53-58): the product over `i` of the permutation factor
(`locPiv(i) == i+1 ? 1 : -1`) and the pivot-diagonal factor
(`psiM(i,i) > 0 ? 1 : -1`). -/
def detSign {n : ℕ} (A : Matrix (Fin n) (Fin n) ℚ) : ℤ :=
  ∏ i : Fin n,
    ((if (getrf A).2 i = i.val + 1 then 1 else -1)
      * (if 0 < (getrf A).1 i i then 1 else (-1 : ℤ)))

/-- The log-magnitude `parallel_reduce` of `InvertWithLog` (lines 60-62):
`Σ_i log |psiM(i,i)|` over the LU diagonal. -/
noncomputable def logDetOf {n : ℕ} (A : Matrix (Fin n) (Fin n) ℚ) : ℝ :=
  ∑ i : Fin n, Real.log |(((getrf A).1 i i : ℚ) : ℝ)|

/-- `InvertWithLog` (Determinant.h, lines 49-69): factorize, accumulate the
log-magnitude of the pivot diagonal, and set `phase = 0` when `sign_det > 0`
and `π` otherwise.  The function returns unconditionally: it has no error
channel of any kind. -/
noncomputable def InvertWithLog {n : ℕ} (A : Matrix (Fin n) (Fin n) ℚ) : ℝ × ℝ :=
  (logDetOf A, if 0 < detSign A then 0 else Real.pi)

theorem foldl_pivot_ge {n : ℕ} (A : Matrix (Fin n) (Fin n) ℚ) (k : Fin n) :
    ∀ (l : List (Fin n)) (b : Fin n), k ≤ b →
      k ≤ l.foldl (fun best i => if k ≤ i ∧ |A best k| < |A i k| then i else best) b := by
  intro l
  induction l with
  | nil => exact fun b hb => hb
  | cons i l ih =>
    intro b hb
    simp only [List.foldl_cons]
    by_cases hc : k ≤ i ∧ |A b k| < |A i k|
    · rw [if_pos hc]
      exact ih i hc.1
    · rw [if_neg hc]
      exact ih b hb

theorem foldl_pivot_max {n : ℕ} (A : Matrix (Fin n) (Fin n) ℚ) (k : Fin n) :
    ∀ (l : List (Fin n)) (b : Fin n),
      |A b k| ≤ |A (l.foldl
          (fun best i => if k ≤ i ∧ |A best k| < |A i k| then i else best) b) k|
      ∧ ∀ x ∈ l, k ≤ x →
          |A x k| ≤ |A (l.foldl
            (fun best i => if k ≤ i ∧ |A best k| < |A i k| then i else best) b) k| := by
  intro l
  induction l with
  | nil => exact fun b => ⟨le_refl _, fun x hx => absurd hx (List.not_mem_nil x)⟩
  | cons i l ih =>
    intro b
    simp only [List.foldl_cons]
    have hb'b : |A b k|
        ≤ |A (if k ≤ i ∧ |A b k| < |A i k| then i else b) k| := by
      split_ifs with hc
      · exact le_of_lt hc.2
      · exact le_refl _
    have hmain := ih (if k ≤ i ∧ |A b k| < |A i k| then i else b)
    refine ⟨le_trans hb'b hmain.1, ?_⟩
    intro x hx hkx
    rcases List.mem_cons.mp hx with rfl | hxl
    · have hxb' : |A x k|
          ≤ |A (if k ≤ x ∧ |A b k| < |A x k| then x else b) k| := by
        split_ifs with hc
        · exact le_refl _
        · push_neg at hc
          exact hc hkx
      exact le_trans hxb' hmain.1
    · exact hmain.2 x hxl hkx

theorem pivotRow_ge {n : ℕ} (A : Matrix (Fin n) (Fin n) ℚ) (k : Fin n) :
    k ≤ pivotRow A k :=
  foldl_pivot_ge A k (List.finRange n) k (le_refl k)

theorem pivotRow_max {n : ℕ} (A : Matrix (Fin n) (Fin n) ℚ) (k i : Fin n)
    (hi : k ≤ i) : |A i k| ≤ |A (pivotRow A k) k| :=
  (foldl_pivot_max A k (List.finRange n) k).2 i (List.mem_finRange i) hi

/-- Columns `< k` of `A` are fully eliminated: every entry strictly below the
diagonal in those columns is zero. -/
def Eliminated {n : ℕ} (A : Matrix (Fin n) (Fin n) ℚ) (k : ℕ) : Prop :=
  ∀ i j : Fin n, (j : ℕ) < k → j < i → A i j = 0

theorem eliminated_swap {n : ℕ} {A : Matrix (Fin n) (Fin n) ℚ} {k : ℕ}
    (hA : Eliminated A k) (h : k < n) (p : Fin n) (hp : (⟨k, h⟩ : Fin n) ≤ p) :
    Eliminated (A.submatrix (Equiv.swap ⟨k, h⟩ p) id) k := by
  intro i j hj hji
  simp only [Matrix.submatrix_apply, id_eq]
  have hjk : j < (⟨k, h⟩ : Fin n) := Fin.lt_def.mpr hj
  have hσ : j < Equiv.swap (⟨k, h⟩ : Fin n) p i := by
    rcases eq_or_ne i ⟨k, h⟩ with rfl | hik
    · rw [Equiv.swap_apply_left]
      exact lt_of_lt_of_le hjk hp
    · rcases eq_or_ne i p with rfl | hip
      · rw [Equiv.swap_apply_right]
        exact hjk
      · rw [Equiv.swap_apply_of_ne_of_ne hik hip]
        exact hji
  exact hA _ j hj hσ

theorem eliminated_elimStep {n : ℕ} {B : Matrix (Fin n) (Fin n) ℚ} {k : ℕ}
    (h : k < n) (hB : Eliminated B k)
    (hcol : ∀ i : Fin n, (⟨k, h⟩ : Fin n) < i → elimStep B ⟨k, h⟩ i ⟨k, h⟩ = 0) :
    Eliminated (elimStep B ⟨k, h⟩) (k + 1) := by
  intro i j hj hji
  rcases Nat.lt_or_ge (j : ℕ) k with hjk | hjk
  · unfold elimStep
    split_ifs with hki
    · rw [hB i j hjk hji, hB ⟨k, h⟩ j hjk (Fin.lt_def.mpr hjk)]
      ring
    · exact hB i j hjk hji
  · have hjek : (j : ℕ) = k := le_antisymm (Nat.lt_succ_iff.mp hj) hjk
    have hjf : j = ⟨k, h⟩ := Fin.ext hjek
    subst hjf
    exact hcol i hji

theorem elimStep_col_zero {n : ℕ} {B : Matrix (Fin n) (Fin n) ℚ} {k : Fin n}
    (hmax : ∀ i : Fin n, k ≤ i → |B i k| ≤ |B k k|) :
    ∀ i : Fin n, k < i → elimStep B k i k = 0 := by
  intro i hki
  unfold elimStep
  rw [if_pos hki]
  rcases eq_or_ne (B k k) 0 with hz | hz
  · have hb := hmax i (le_of_lt hki)
    rw [hz, abs_zero] at hb
    have hbi : B i k = 0 := abs_nonpos_iff.mp hb
    rw [hbi, hz]
    norm_num
  · rw [div_mul_cancel₀ _ hz]
    ring

theorem swap_col_max {n : ℕ} (A : Matrix (Fin n) (Fin n) ℚ) {k : ℕ} (h : k < n) :
    ∀ i : Fin n, (⟨k, h⟩ : Fin n) ≤ i →
      |(A.submatrix (Equiv.swap ⟨k, h⟩ (pivotRow A ⟨k, h⟩)) id) i ⟨k, h⟩|
        ≤ |(A.submatrix (Equiv.swap ⟨k, h⟩ (pivotRow A ⟨k, h⟩)) id) ⟨k, h⟩ ⟨k, h⟩| := by
  intro i hi
  simp only [Matrix.submatrix_apply, id_eq, Equiv.swap_apply_left]
  have hswap_ge : (⟨k, h⟩ : Fin n)
      ≤ Equiv.swap ⟨k, h⟩ (pivotRow A ⟨k, h⟩) i := by
    rcases eq_or_ne i ⟨k, h⟩ with rfl | hik
    · rw [Equiv.swap_apply_left]
      exact pivotRow_ge A _
    · rcases eq_or_ne i (pivotRow A ⟨k, h⟩) with rfl | hip
      · rw [Equiv.swap_apply_right]
      · rw [Equiv.swap_apply_of_ne_of_ne hik hip]
        exact hi
  exact pivotRow_max A ⟨k, h⟩ _ hswap_ge

theorem det_elimStep {n : ℕ} (B : Matrix (Fin n) (Fin n) ℚ) (k : Fin n) :
    (elimStep B k).det = B.det := by
  refine Matrix.det_eq_of_forall_row_eq_smul_add_const
    (fun i => if k < i then -(B i k / B k k) else 0) k (by simp) ?_
  intro i j
  unfold elimStep
  dsimp only
  split_ifs with hki
  · ring
  · ring

theorem det_swap_submatrix {n : ℕ} (A : Matrix (Fin n) (Fin n) ℚ) (a p : Fin n) :
    (A.submatrix (Equiv.swap a p) id).det = (if p = a then 1 else -1) * A.det := by
  rw [Matrix.det_permute]
  rcases eq_or_ne p a with rfl | hpa
  · rw [Equiv.swap_self, if_pos rfl]
    simp
  · rw [Equiv.Perm.sign_swap (Ne.symm hpa), if_neg hpa]
    simp

theorem getrfAux_succ {n : ℕ} (fuel k : ℕ) (A : Matrix (Fin n) (Fin n) ℚ)
    (piv : Fin n → ℕ) (h : k < n) :
    getrfAux (fuel + 1) k A piv
      = getrfAux fuel (k + 1)
          (elimStep (A.submatrix (Equiv.swap ⟨k, h⟩ (pivotRow A ⟨k, h⟩)) id) ⟨k, h⟩)
          (Function.update piv ⟨k, h⟩ ((pivotRow A ⟨k, h⟩).val + 1)) := by
  simp [getrfAux, h]

theorem getrfAux_stop {n : ℕ} (fuel k : ℕ) (A : Matrix (Fin n) (Fin n) ℚ)
    (piv : Fin n → ℕ) (h : ¬ k < n) : getrfAux fuel k A piv = (A, piv) := by
  cases fuel with
  | zero => rfl
  | succ fuel => simp [getrfAux, h]

/-- The `getrf` recursion, fully specified: starting from a state whose first
`k` columns are eliminated, it produces an upper-triangular factor, records
pivots only for columns `≥ k`, and the determinant of the input equals the
product of the recorded transposition signs times the determinant of the
factor. -/
theorem getrfAux_spec {n : ℕ} :
    ∀ (fuel k : ℕ) (A : Matrix (Fin n) (Fin n) ℚ) (piv : Fin n → ℕ),
      n ≤ fuel + k → Eliminated A k →
      Eliminated (getrfAux fuel k A piv).1 n
      ∧ (∀ i : Fin n, (i : ℕ) < k → (getrfAux fuel k A piv).2 i = piv i)
      ∧ A.det = (∏ i : Fin n,
          if k ≤ (i : ℕ) then
            (if (getrfAux fuel k A piv).2 i = (i : ℕ) + 1 then (1 : ℚ) else -1)
          else 1) * (getrfAux fuel k A piv).1.det := by
  intro fuel
  induction fuel with
  | zero =>
    intro k A piv hnk hA
    have hnk' : n ≤ k := by omega
    refine ⟨fun i j hj hji => hA i j (lt_of_lt_of_le hj hnk') hji, fun i _ => rfl, ?_⟩
    have hprod : (∏ i : Fin n,
        if k ≤ (i : ℕ) then
          (if (getrfAux 0 k A piv).2 i = (i : ℕ) + 1 then (1 : ℚ) else -1)
        else 1) = 1 := by
      apply Finset.prod_eq_one
      intro i _
      rw [if_neg (not_le.mpr (lt_of_lt_of_le i.isLt hnk'))]
    rw [hprod, one_mul]
    rfl
  | succ fuel ih =>
    intro k A piv hnk hA
    by_cases hkn : k < n
    · rw [getrfAux_succ fuel k A piv hkn]
      have hp : (⟨k, hkn⟩ : Fin n) ≤ pivotRow A ⟨k, hkn⟩ := pivotRow_ge A _
      have hBel : Eliminated (A.submatrix (Equiv.swap ⟨k, hkn⟩ (pivotRow A ⟨k, hkn⟩)) id) k :=
        eliminated_swap hA hkn _ hp
      have hcol := elimStep_col_zero (swap_col_max A hkn)
      have hCel : Eliminated
          (elimStep (A.submatrix (Equiv.swap ⟨k, hkn⟩ (pivotRow A ⟨k, hkn⟩)) id) ⟨k, hkn⟩)
          (k + 1) :=
        eliminated_elimStep hkn hBel hcol
      obtain ⟨h1, h2, h3⟩ := ih (k + 1)
        (elimStep (A.submatrix (Equiv.swap ⟨k, hkn⟩ (pivotRow A ⟨k, hkn⟩)) id) ⟨k, hkn⟩)
        (Function.update piv ⟨k, hkn⟩ ((pivotRow A ⟨k, hkn⟩).val + 1))
        (by omega) hCel
      refine ⟨h1, ?_, ?_⟩
      · intro i hik
        rw [h2 i (by omega)]
        exact Function.update_noteq
          (by
            intro hcontra
            rw [hcontra] at hik
            exact absurd hik (lt_irrefl k)) _ _
      · have hdetB : (A.submatrix (Equiv.swap ⟨k, hkn⟩ (pivotRow A ⟨k, hkn⟩)) id).det
            = (if pivotRow A ⟨k, hkn⟩ = ⟨k, hkn⟩ then (1 : ℚ) else -1) * A.det :=
          det_swap_submatrix A ⟨k, hkn⟩ (pivotRow A ⟨k, hkn⟩)
        have hdetC : (elimStep (A.submatrix (Equiv.swap ⟨k, hkn⟩ (pivotRow A ⟨k, hkn⟩)) id)
              ⟨k, hkn⟩).det
            = (if pivotRow A ⟨k, hkn⟩ = ⟨k, hkn⟩ then (1 : ℚ) else -1) * A.det := by
          rw [det_elimStep, hdetB]
        have hpvkf : (getrfAux fuel (k + 1)
              (elimStep (A.submatrix (Equiv.swap ⟨k, hkn⟩ (pivotRow A ⟨k, hkn⟩)) id) ⟨k, hkn⟩)
              (Function.update piv ⟨k, hkn⟩ ((pivotRow A ⟨k, hkn⟩).val + 1))).2 ⟨k, hkn⟩
            = (pivotRow A ⟨k, hkn⟩).val + 1 := by
          rw [h2 ⟨k, hkn⟩ (by exact Nat.lt_succ_self k)]
          exact Function.update_same _ _ _
        have hfkf : (if (getrfAux fuel (k + 1)
              (elimStep (A.submatrix (Equiv.swap ⟨k, hkn⟩ (pivotRow A ⟨k, hkn⟩)) id) ⟨k, hkn⟩)
              (Function.update piv ⟨k, hkn⟩ ((pivotRow A ⟨k, hkn⟩).val + 1))).2 ⟨k, hkn⟩
                = k + 1 then (1 : ℚ) else -1)
            = (if pivotRow A ⟨k, hkn⟩ = ⟨k, hkn⟩ then (1 : ℚ) else -1) := by
          rw [hpvkf]
          rcases eq_or_ne (pivotRow A ⟨k, hkn⟩) ⟨k, hkn⟩ with hpk | hpk
          · rw [if_pos hpk, if_pos]
            rw [hpk]
          · rw [if_neg hpk, if_neg]
            intro hcontra
            exact hpk (Fin.ext (Nat.succ_injective hcontra))
        have hpt : ∀ i : Fin n,
            (if k ≤ (i : ℕ) then
              (if (getrfAux fuel (k + 1)
                  (elimStep (A.submatrix (Equiv.swap ⟨k, hkn⟩ (pivotRow A ⟨k, hkn⟩)) id) ⟨k, hkn⟩)
                  (Function.update piv ⟨k, hkn⟩ ((pivotRow A ⟨k, hkn⟩).val + 1))).2 i
                  = (i : ℕ) + 1 then (1 : ℚ) else -1)
            else 1)
              = (if i = ⟨k, hkn⟩ then
                  (if (getrfAux fuel (k + 1)
                      (elimStep (A.submatrix (Equiv.swap ⟨k, hkn⟩ (pivotRow A ⟨k, hkn⟩)) id) ⟨k, hkn⟩)
                      (Function.update piv ⟨k, hkn⟩ ((pivotRow A ⟨k, hkn⟩).val + 1))).2 ⟨k, hkn⟩
                      = k + 1 then (1 : ℚ) else -1)
                else 1)
                * (if k + 1 ≤ (i : ℕ) then
                    (if (getrfAux fuel (k + 1)
                        (elimStep (A.submatrix (Equiv.swap ⟨k, hkn⟩ (pivotRow A ⟨k, hkn⟩)) id) ⟨k, hkn⟩)
                        (Function.update piv ⟨k, hkn⟩ ((pivotRow A ⟨k, hkn⟩).val + 1))).2 i
                        = (i : ℕ) + 1 then (1 : ℚ) else -1)
                  else 1) := by
          intro i
          rcases eq_or_ne i ⟨k, hkn⟩ with rfl | hik
          · rw [if_pos rfl,
              if_pos (show k ≤ (((⟨k, hkn⟩ : Fin n)) : ℕ) from le_refl k),
              if_neg (show ¬ k + 1 ≤ (((⟨k, hkn⟩ : Fin n)) : ℕ) from Nat.lt_irrefl k), mul_one]
          · have hvk : (i : ℕ) ≠ k := fun hc => hik (Fin.ext hc)
            rw [if_neg hik, one_mul]
            rcases Nat.lt_or_ge (i : ℕ) k with hlt | hge
            · rw [if_neg (show ¬ k ≤ (i : ℕ) by omega),
                if_neg (show ¬ k + 1 ≤ (i : ℕ) by omega)]
            · rw [if_pos (show k ≤ (i : ℕ) by omega),
                if_pos (show k + 1 ≤ (i : ℕ) by omega)]
        rw [Finset.prod_congr rfl (fun i _ => hpt i), Finset.prod_mul_distrib,
          Finset.prod_ite_eq' Finset.univ (⟨k, hkn⟩ : Fin n)
            (fun _ => (if (getrfAux fuel (k + 1)
              (elimStep (A.submatrix (Equiv.swap ⟨k, hkn⟩ (pivotRow A ⟨k, hkn⟩)) id) ⟨k, hkn⟩)
              (Function.update piv ⟨k, hkn⟩ ((pivotRow A ⟨k, hkn⟩).val + 1))).2 ⟨k, hkn⟩
              = k + 1 then (1 : ℚ) else -1)),
          if_pos (Finset.mem_univ _), hfkf, mul_assoc, ← h3, hdetC]
        rcases eq_or_ne (pivotRow A ⟨k, hkn⟩) ⟨k, hkn⟩ with hpk | hpk
        · rw [if_pos hpk, one_mul, one_mul]
        · rw [if_neg hpk]
          ring
    · rw [getrfAux_stop (fuel + 1) k A piv hkn]
      have hnk' : n ≤ k := by omega
      refine ⟨fun i j hj hji => hA i j (lt_of_lt_of_le hj hnk') hji, fun i _ => rfl, ?_⟩
      have hprod : (∏ i : Fin n,
          if k ≤ (i : ℕ) then (if piv i = (i : ℕ) + 1 then (1 : ℚ) else -1) else 1) = 1 := by
        apply Finset.prod_eq_one
        intro i _
        rw [if_neg (not_le.mpr (lt_of_lt_of_le i.isLt hnk'))]
      rw [hprod, one_mul]

theorem getrf_det {n : ℕ} (A : Matrix (Fin n) (Fin n) ℚ) :
    A.det = (∏ i : Fin n, if (getrf A).2 i = (i : ℕ) + 1 then (1 : ℚ) else -1)
      * ∏ i : Fin n, (getrf A).1 i i := by
  obtain ⟨h1, _, h3⟩ := getrfAux_spec n 0 A (fun _ => 0) (by omega)
    (fun i j hj _ => absurd hj (Nat.not_lt_zero _))
  have hU : (getrf A).1.det = ∏ i : Fin n, (getrf A).1 i i := by
    apply Matrix.det_of_upperTriangular
    intro i j hji
    exact h1 i j j.isLt hji
  have h0 : (∏ i : Fin n,
      if (0 : ℕ) ≤ (i : ℕ) then
        (if (getrf A).2 i = (i : ℕ) + 1 then (1 : ℚ) else -1)
      else 1)
      = ∏ i : Fin n, (if (getrf A).2 i = (i : ℕ) + 1 then (1 : ℚ) else -1) := by
    apply Finset.prod_congr rfl
    intro i _
    rw [if_pos (Nat.zero_le _)]
  have h3' : A.det = (∏ i : Fin n,
      if (0 : ℕ) ≤ (i : ℕ) then
        (if (getrf A).2 i = (i : ℕ) + 1 then (1 : ℚ) else -1)
      else 1) * (getrf A).1.det := h3
  rw [h3', h0, hU]

theorem posSign_mul_abs (x : ℚ) : (if 0 < x then (1 : ℚ) else -1) * |x| = x := by
  rcases lt_trichotomy 0 x with hx | hx | hx
  · rw [if_pos hx, one_mul, abs_of_pos hx]
  · rw [← hx]
    norm_num
  · rw [if_neg (not_lt.mpr (le_of_lt hx)), abs_of_neg hx]
    ring

/-- Grounding of the sign reduce of `InvertWithLog`: the computed `sign_det`
times the product of the absolute pivot diagonal is exactly the determinant
of the input matrix. -/
theorem detSign_mul_prod_abs {n : ℕ} (A : Matrix (Fin n) (Fin n) ℚ) :
    ((detSign A : ℤ) : ℚ) * ∏ i : Fin n, |(getrf A).1 i i| = A.det := by
  unfold detSign
  have hcast : (((∏ i : Fin n,
      ((if (getrf A).2 i = (i : ℕ) + 1 then 1 else -1)
        * (if 0 < (getrf A).1 i i then 1 else (-1 : ℤ)))) : ℤ) : ℚ)
      = ∏ i : Fin n,
          ((if (getrf A).2 i = (i : ℕ) + 1 then (1 : ℚ) else -1)
            * (if 0 < (getrf A).1 i i then (1 : ℚ) else -1)) := by
    rw [Int.cast_prod]
    apply Finset.prod_congr rfl
    intro i _
    rw [Int.cast_mul]
    congr 1 <;> split_ifs <;> norm_num
  rw [hcast, Finset.prod_mul_distrib, mul_assoc, ← Finset.prod_mul_distrib,
    Finset.prod_congr rfl (fun i _ => posSign_mul_abs ((getrf A).1 i i))]
  exact (getrf_det A).symm

theorem detSign_abs {n : ℕ} (A : Matrix (Fin n) (Fin n) ℚ) : |detSign A| = 1 := by
  unfold detSign
  rw [Finset.abs_prod]
  apply Finset.prod_eq_one
  intro i _
  rw [abs_mul]
  split_ifs <;> norm_num

/-- Claim C3: for every nonsingular matrix, `InvertWithLog` returns the
log-magnitude `Σ_i log |pivot_i|` over the LU pivot diagonal — and this sum
equals `log |det Matrix|` — and sets the phase to `0` exactly when the
determinant (equivalently, the tracked product of permutation-induced sign
flips and pivot-diagonal signs, conjunct three) is positive, and to `π` when
it is negative. -/
theorem invertWithLog_spec {n : ℕ} (A : Matrix (Fin n) (Fin n) ℚ) (hd : A.det ≠ 0) :
    (InvertWithLog A).1 = (∑ i : Fin n, Real.log |(((getrf A).1 i i : ℚ) : ℝ)|)
    ∧ (InvertWithLog A).1 = Real.log |((A.det : ℚ) : ℝ)|
    ∧ ((0 : ℤ) < detSign A ↔ 0 < A.det)
    ∧ (InvertWithLog A).2 = (if 0 < A.det then (0 : ℝ) else Real.pi) := by
  have key := detSign_mul_prod_abs A
  have hPnonneg : 0 ≤ ∏ i : Fin n, |(getrf A).1 i i| :=
    Finset.prod_nonneg fun i _ => abs_nonneg _
  have hsabs : |((detSign A : ℤ) : ℚ)| = 1 := by
    rw [← Int.cast_abs, detSign_abs]
    norm_num
  have habsdet : |A.det| = ∏ i : Fin n, |(getrf A).1 i i| := by
    rw [← key, abs_mul, hsabs, one_mul, abs_of_nonneg hPnonneg]
  have hprodne : (∏ i : Fin n, |(getrf A).1 i i|) ≠ 0 := by
    rw [← habsdet]
    exact abs_ne_zero.mpr hd
  have hPne : ∀ i : Fin n, |(getrf A).1 i i| ≠ 0 := fun i =>
    Finset.prod_ne_zero_iff.mp hprodne i (Finset.mem_univ i)
  have hPpos : 0 < ∏ i : Fin n, |(getrf A).1 i i| :=
    lt_of_le_of_ne hPnonneg (Ne.symm hprodne)
  have hlog : (∑ i : Fin n, Real.log |(((getrf A).1 i i : ℚ) : ℝ)|)
      = Real.log |((A.det : ℚ) : ℝ)| := by
    calc (∑ i : Fin n, Real.log |(((getrf A).1 i i : ℚ) : ℝ)|)
        = ∑ i : Fin n, Real.log ((|(getrf A).1 i i| : ℚ) : ℝ) := by
          apply Finset.sum_congr rfl
          intro i _
          rw [Rat.cast_abs]
      _ = Real.log (∏ i : Fin n, ((|(getrf A).1 i i| : ℚ) : ℝ)) :=
          (Real.log_prod _ _ fun i _ => Rat.cast_ne_zero.mpr (hPne i)).symm
      _ = Real.log (((∏ i : Fin n, |(getrf A).1 i i| : ℚ)) : ℝ) := by
          rw [Rat.cast_prod]
      _ = Real.log ((|A.det| : ℚ) : ℝ) := by rw [habsdet]
      _ = Real.log |((A.det : ℚ) : ℝ)| := by rw [Rat.cast_abs]
  have hiff : (0 : ℤ) < detSign A ↔ 0 < A.det := by
    rw [← key]
    constructor
    · intro hs
      exact mul_pos (by exact_mod_cast hs) hPpos
    · intro hmul
      by_contra hns
      push_neg at hns
      have hcast : ((detSign A : ℤ) : ℚ) ≤ 0 := by exact_mod_cast hns
      nlinarith
  refine ⟨rfl, hlog, hiff, ?_⟩
  show (if 0 < detSign A then (0 : ℝ) else Real.pi)
      = (if 0 < A.det then (0 : ℝ) else Real.pi)
  exact if_congr hiff rfl rfl

theorem invertWithLog_spec_witness :
    (!![0, 1; 1, 0] : Matrix (Fin 2) (Fin 2) ℚ).det ≠ 0
    ∧ ((InvertWithLog (!![0, 1; 1, 0] : Matrix (Fin 2) (Fin 2) ℚ)).1
        = (∑ i : Fin 2,
            Real.log |(((getrf (!![0, 1; 1, 0] : Matrix (Fin 2) (Fin 2) ℚ)).1 i i : ℚ) : ℝ)|)
      ∧ (InvertWithLog (!![0, 1; 1, 0] : Matrix (Fin 2) (Fin 2) ℚ)).1
          = Real.log |(((!![0, 1; 1, 0] : Matrix (Fin 2) (Fin 2) ℚ).det : ℚ) : ℝ)|
      ∧ ((0 : ℤ) < detSign (!![0, 1; 1, 0] : Matrix (Fin 2) (Fin 2) ℚ)
          ↔ 0 < (!![0, 1; 1, 0] : Matrix (Fin 2) (Fin 2) ℚ).det)
      ∧ (InvertWithLog (!![0, 1; 1, 0] : Matrix (Fin 2) (Fin 2) ℚ)).2
          = (if 0 < (!![0, 1; 1, 0] : Matrix (Fin 2) (Fin 2) ℚ).det then (0 : ℝ)
            else Real.pi)) :=
  ⟨by norm_num [Matrix.det_fin_two],
    invertWithLog_spec _ (by norm_num [Matrix.det_fin_two])⟩

theorem pivotRow_zero {n : ℕ} (k : Fin n) :
    pivotRow (0 : Matrix (Fin n) (Fin n) ℚ) k = k := by
  unfold pivotRow
  have hfold : ∀ (l : List (Fin n)) (b : Fin n),
      l.foldl (fun best i =>
        if k ≤ i ∧ |(0 : Matrix (Fin n) (Fin n) ℚ) best k|
            < |(0 : Matrix (Fin n) (Fin n) ℚ) i k| then i else best) b = b := by
    intro l
    induction l with
    | nil => intro b; rfl
    | cons i l ih =>
      intro b
      rw [List.foldl_cons, if_neg (fun hc => absurd hc.2 (by simp))]
      exact ih b
  exact hfold _ k

theorem elimStep_zero {n : ℕ} (k : Fin n) :
    elimStep (0 : Matrix (Fin n) (Fin n) ℚ) k = 0 := by
  ext i j
  unfold elimStep
  split_ifs <;> simp

/-- `getrf` on the zero matrix: every pivot is the diagonal itself (no row
swap ever helps, `ipiv i = i + 1` for every processed column) and the
factored matrix is still identically zero — in particular every pivot
diagonal entry is exactly `0`. -/
theorem getrfAux_zero {n : ℕ} :
    ∀ (fuel k : ℕ) (piv : Fin n → ℕ),
      (getrfAux fuel k (0 : Matrix (Fin n) (Fin n) ℚ) piv).1 = 0
      ∧ ∀ i : Fin n, (getrfAux fuel k (0 : Matrix (Fin n) (Fin n) ℚ) piv).2 i
          = if k ≤ (i : ℕ) ∧ (i : ℕ) < fuel + k then (i : ℕ) + 1 else piv i := by
  intro fuel
  induction fuel with
  | zero =>
    intro k piv
    refine ⟨rfl, fun i => ?_⟩
    rw [if_neg (by omega)]
    rfl
  | succ fuel ih =>
    intro k piv
    by_cases hkn : k < n
    · rw [getrfAux_succ fuel k _ piv hkn]
      rw [pivotRow_zero]
      have hsub : (0 : Matrix (Fin n) (Fin n) ℚ).submatrix
          (Equiv.swap ⟨k, hkn⟩ ⟨k, hkn⟩) id = 0 := by
        ext i j
        simp [Matrix.submatrix_apply]
      rw [hsub, elimStep_zero]
      obtain ⟨g1, g2⟩ := ih (k + 1)
        (Function.update piv ⟨k, hkn⟩ (((⟨k, hkn⟩ : Fin n)).val + 1))
      refine ⟨g1, fun i => ?_⟩
      rw [g2 i]
      rcases eq_or_ne i (⟨k, hkn⟩ : Fin n) with rfl | hik
      · rw [if_neg (fun hc => Nat.lt_irrefl k hc.1), Function.update_same,
          if_pos ⟨le_refl k, lt_add_of_pos_left k (Nat.succ_pos fuel)⟩]
      · rw [Function.update_noteq hik]
        have hvk : (i : ℕ) ≠ k := fun hc => hik (Fin.ext hc)
        by_cases hc : k ≤ (i : ℕ) ∧ (i : ℕ) < fuel + 1 + k
        · rw [if_pos (by omega : k + 1 ≤ (i : ℕ) ∧ (i : ℕ) < fuel + (k + 1)),
            if_pos hc]
        · rw [if_neg (by omega : ¬ (k + 1 ≤ (i : ℕ) ∧ (i : ℕ) < fuel + (k + 1))),
            if_neg hc]
    · rw [getrfAux_stop (fuel + 1) k _ piv hkn]
      refine ⟨rfl, fun i => ?_⟩
      rw [if_neg (fun hc => hkn (lt_of_le_of_lt hc.1 i.isLt))]

/-- Claim C4 (code evidence): the zero matrix is singular and every pivot
produced by factorization is exactly `0`; yet `InvertWithLog` returns
normally — it has no error channel, accumulates `Σ log |0|` (`-inf` in the
floating-point code) as if nothing happened, and even reports phase `0`
(the sign product treats each zero pivot as "negative", and two of them
cancel), as though the determinant were a positive number. -/
theorem invertWithLog_singular_no_error :
    (0 : Matrix (Fin 2) (Fin 2) ℚ).det = 0
    ∧ (∀ i : Fin 2, (getrf (0 : Matrix (Fin 2) (Fin 2) ℚ)).1 i i = 0)
    ∧ (InvertWithLog (0 : Matrix (Fin 2) (Fin 2) ℚ)).2 = 0 := by
  have hU := (getrfAux_zero (n := 2) 2 0 (fun _ => 0)).1
  have hpv := (getrfAux_zero (n := 2) 2 0 (fun _ => 0)).2
  have hU' : ∀ i : Fin 2, (getrf (0 : Matrix (Fin 2) (Fin 2) ℚ)).1 i i = 0 := by
    intro i
    show (getrfAux 2 0 (0 : Matrix (Fin 2) (Fin 2) ℚ) (fun _ => 0)).1 i i = 0
    rw [hU]
    rfl
  refine ⟨by simp [Matrix.det_fin_two], hU', ?_⟩
  have hsign : detSign (0 : Matrix (Fin 2) (Fin 2) ℚ) = 1 := by
    unfold detSign
    rw [Fin.prod_univ_two]
    have hp0 : (getrf (0 : Matrix (Fin 2) (Fin 2) ℚ)).2 0 = 1 := by
      show (getrfAux 2 0 (0 : Matrix (Fin 2) (Fin 2) ℚ) (fun _ => 0)).2 0 = 1
      rw [hpv 0]
      norm_num
    have hp1 : (getrf (0 : Matrix (Fin 2) (Fin 2) ℚ)).2 1 = 2 := by
      show (getrfAux 2 0 (0 : Matrix (Fin 2) (Fin 2) ℚ) (fun _ => 0)).2 1 = 2
      rw [hpv 1]
      norm_num
    rw [hp0, hp1, hU' 0, hU' 1]
    norm_num
  show (if 0 < detSign (0 : Matrix (Fin 2) (Fin 2) ℚ) then (0 : ℝ) else Real.pi) = 0
  rw [hsign]
  norm_num
